import Mathlib

/-!
Verification of the pircolate IRC message parsing library.

The development shallowly embeds the Rust sources of the repository:

* `src/message/parser.rs` — the single pass tokenizer (`parse_message`,
  `move_next`, `parse_tags`, `parse_prefix`, `parse_command`, `parse_args`);
* `src/message/mod.rs` — the `Message` record and its accessors;
* `src/command.rs` / `src/command/mod.rs` / `src/command/twitch.rs` — the
  typed extraction protocol (`Command::try_match`, `NamesReply`).

The byte buffer is modelled as a `List Char`: the Rust code validates the
buffer as UTF-8 before tokenizing and every range boundary it produces falls
on an ASCII delimiter, so positions in the list of characters correspond
exactly to the byte positions used by the Rust code on the inputs we reason
about.  Each Rust `while` loop is embedded as a structurally recursive
function over an explicit fuel argument; every call site passes
`input.length + 1` fuel, which is shown (and in the concrete evaluations,
computed) to be sufficient, since each loop advances its position by at
least one on every iteration and positions never exceed the buffer length.
-/

namespace Pircolate

/-- The parser error type (`error.rs`).  Only the classification relevant to
the tokenizer, `UnexpectedEndOfInput`, is modelled: encoding failures cannot
arise at the `List Char` level since the buffer is already decoded text. -/
inductive MessageParseError where
  | unexpectedEndOfInput
  deriving DecidableEq, Repr

/-- `input[position]` of the Rust code.  All call sites below maintain the
invariant `position < input.length` that the Rust code maintains (indexing
would panic otherwise), so the default character is never observed. -/
def byteAt (input : List Char) (position : Nat) : Char :=
  input.getD position '\x00'

/-- `move_next` from `parser.rs`: advance one position, failing if that
reaches or passes the end of the buffer. -/
def move_next (value bound : Nat) : Except MessageParseError Nat :=
  if value + 1 ≥ bound then .error .unexpectedEndOfInput else .ok (value + 1)

theorem move_next_ok {value bound p : Nat} (h : move_next value bound = .ok p) :
    p = value + 1 ∧ p < bound := by
  unfold move_next at h
  split at h
  · exact absurd h (by simp)
  · injection h with h
    omega

theorem move_next_err {value bound : Nat} (h : bound ≤ value + 1) :
    move_next value bound = .error .unexpectedEndOfInput := by
  unfold move_next
  simp [h]

/-- Generic embedding of the scanning `while` loops of `parser.rs`: advance
via `move_next` until the current character satisfies `stop`; a character
satisfying `err` raises `UnexpectedEndOfInput` (used for a space inside a
tag key).  The fuel argument makes the recursion structural; callers pass
`input.length + 1`, which is always sufficient. -/
def scanUntil (stop err : Char → Bool) (input : List Char) :
    Nat → Nat → Except MessageParseError Nat
  | 0, _ => .error .unexpectedEndOfInput
  | fuel + 1, position =>
    let c := byteAt input position
    if stop c then .ok position
    else if err c then .error .unexpectedEndOfInput
    else
      match move_next position input.length with
      | .error e => .error e
      | .ok p => scanUntil stop err input fuel p

/-- Substring extraction `&buffer[a..b]` for a range `(a, b)`. -/
def slice (input : List Char) (r : Nat × Nat) : List Char :=
  (input.drop r.1).take (r.2 - r.1)

/-- Stop set of the tag key scan in `parse_tags`:
`while input[position] != b'=' && input[position] != b';'`. -/
def keyStop (c : Char) : Bool := c == '=' || c == ';'

/-- Error set of the tag key scan: `if input[position] == b' '` raises
`UnexpectedEndOfInput` inside the key loop. -/
def keyErr (c : Char) : Bool := c == ' '

/-- Stop set of the tag value scan:
`while input[position] != b';' && input[position] != b' '`. -/
def valueStop (c : Char) : Bool := c == ';' || c == ' '

/-- Stop set of the origin scan in `parse_prefix`:
`while input[position] != b' ' && input[position] != b'!' && input[position] != b'@'`. -/
def originStop (c : Char) : Bool := c == ' ' || c == '!' || c == '@'

/-- Stop set of the user scan in `parse_prefix`:
`while input[position] != b' ' && input[position] != b'@'`. -/
def userStop (c : Char) : Bool := c == ' ' || c == '@'

/-- Stop set of the host scan in `parse_prefix`: `while input[position] != b' '`. -/
def hostStop (c : Char) : Bool := c == ' '

/-- The scans other than the tag key scan have no in-loop error characters. -/
def noErr (_ : Char) : Bool := false

/-- A tag is a key range and an optional value range (`message/mod.rs`). -/
abbrev TagRange := (Nat × Nat) × Option (Nat × Nat)

/-- The structured prefix ranges (`message/mod.rs`).  Field names follow the
Rust struct `PrefixRange { raw_prefix, prefix, user, host }`, adjusted only
where Lean reserves the word. -/
structure PrefixRange where
  rawPrefix : Nat × Nat
  prefixRange : Nat × Nat
  user : Option (Nat × Nat)
  host : Option (Nat × Nat)
  deriving DecidableEq, Repr

/-- The body of the tag loop of `parse_tags` (`parser.rs` lines 53-87): scan
a key, optionally skip `=` and scan a value, record the pair, and either
stop after the terminating space or continue with the next pair. -/
def tagsLoop (input : List Char) :
    Nat → Nat → List TagRange → Except MessageParseError (List TagRange × Nat)
  | 0, _, _ => .error .unexpectedEndOfInput
  | fuel + 1, position, tags =>
    let len := input.length
    let key_start := position
    match scanUntil keyStop keyErr input (len + 1) position with
    | .error e => .error e
    | .ok kpos =>
      let key_range := (key_start, kpos)
      match (if byteAt input kpos = '=' then move_next kpos len else .ok kpos) with
      | .error e => .error e
      | .ok value_start =>
        match scanUntil valueStop noErr input (len + 1) value_start with
        | .error e => .error e
        | .ok vpos =>
          let value_range := if value_start = vpos then none else some (value_start, vpos)
          let tags := tags ++ [(key_range, value_range)]
          if byteAt input vpos = ' ' then
            match move_next vpos len with
            | .error e => .error e
            | .ok p => .ok (tags, p)
          else
            match move_next vpos len with
            | .error e => .error e
            | .ok p => tagsLoop input fuel p tags

/-- `parse_tags` from `parser.rs`: an empty buffer is an error; a leading `@`
starts the tag section, otherwise no tags are consumed. -/
def parse_tags (input : List Char) :
    Except MessageParseError (Option (List TagRange) × Nat) :=
  if input.isEmpty then .error .unexpectedEndOfInput
  else if byteAt input 0 = '@' then
    match move_next 0 input.length with
    | .error e => .error e
    | .ok position =>
      match tagsLoop input (input.length + 1) position [] with
      | .error e => .error e
      | .ok (tags, position) => .ok (some tags, position)
  else .ok (none, 0)

/-- `parse_prefix` from `parser.rs`: a leading `:` starts the prefix; the
origin runs to the first space, `!` or `@`; an optional `!`-introduced user
runs to the first space or `@`; an optional `@`-introduced host runs to the
first space; finally the terminating space is stepped over. -/
def parsePrefix (input : List Char) (position : Nat) :
    Except MessageParseError (Option PrefixRange × Nat) :=
  let len := input.length
  if position ≥ len then .error .unexpectedEndOfInput
  else if byteAt input position = ':' then
    match move_next position len with
    | .error e => .error e
    | .ok start0 =>
      match scanUntil originStop noErr input (len + 1) start0 with
      | .error e => .error e
      | .ok p1 =>
        match (if byteAt input p1 = '!' then
                 match move_next p1 len with
                 | .error e => .error e
                 | .ok user_start =>
                   match scanUntil userStop noErr input (len + 1) user_start with
                   | .error e => .error e
                   | .ok p2 => .ok (some (user_start, p2), p2)
               else .ok (none, p1) :
               Except MessageParseError (Option (Nat × Nat) × Nat)) with
        | .error e => .error e
        | .ok (user_range, p2) =>
          match (if byteAt input p2 = '@' then
                   match move_next p2 len with
                   | .error e => .error e
                   | .ok host_start =>
                     match scanUntil hostStop noErr input (len + 1) host_start with
                     | .error e => .error e
                     | .ok p3 => .ok (some (host_start, p3), p3)
                 else .ok (none, p2) :
                 Except MessageParseError (Option (Nat × Nat) × Nat)) with
          | .error e => .error e
          | .ok (host_range, p3) =>
            match move_next p3 len with
            | .error e => .error e
            | .ok p4 =>
              .ok (some { rawPrefix := (start0, p3), prefixRange := (start0, p1),
                          user := user_range, host := host_range }, p4)
  else .ok (none, position)

/-- The command scan of `parse_command`:
`while position < len && input[position] != b' ' { position += 1 }`. -/
def cmdScan (input : List Char) : Nat → Nat → Nat
  | 0, position => position
  | fuel + 1, position =>
    if position < input.length then
      if byteAt input position = ' ' then position
      else cmdScan input fuel (position + 1)
    else position

/-- `parse_command` from `parser.rs`.  Note the quirk faithfully kept from
the source: the skip of a leading space tests `input[0]`, the first byte of
the whole buffer, not the current position. -/
def parse_command (input : List Char) (position : Nat) :
    Except MessageParseError ((Nat × Nat) × Nat) :=
  let len := input.length
  if position ≥ len then .error .unexpectedEndOfInput
  else
    let position := if byteAt input 0 = ' ' then position + 1 else position
    let command_start := position
    let position := cmdScan input (len + 1) position
    let command_range := (command_start, position)
    if position < len ∧ byteAt input position = ' ' then
      match move_next position len with
      | .error e => .error e
      | .ok p => .ok (command_range, p)
    else .ok (command_range, position)

/-- The argument loop of `parse_args` (`parser.rs` lines 186-205).  The test
for `:` is made at every byte of the argument region, not only at the start
of a token. -/
def argsLoop (input : List Char) :
    Nat → Nat → Nat → List (Nat × Nat) → List (Nat × Nat) × Nat
  | 0, position, _, args => (args, position)
  | fuel + 1, position, arg_start, args =>
    if byteAt input position = ':' then
      (args ++ [(position + 1, input.length)], position + 1)
    else
      let state :=
        if byteAt input position = ' ' then (args ++ [(arg_start, position)], position + 1)
        else (args, arg_start)
      let args := state.1
      let arg_start := state.2
      let position := position + 1
      if position ≥ input.length then (args ++ [(arg_start, position)], position)
      else argsLoop input fuel position arg_start args

/-- `parse_args` from `parser.rs`: nothing after the command yields no
argument list at all; otherwise the loop above carves the argument region. -/
def parse_args (input : List Char) (position : Nat) :
    Except MessageParseError (Option (List (Nat × Nat)) × Nat) :=
  if position ≥ input.length then .ok (none, position)
  else
    let res := argsLoop input (input.length + 1) position position []
    .ok (some res.1, res.2)

/-- The `Message` record (`message/mod.rs`): the raw buffer plus the ranges
produced by the tokenizer.  The Rust field `prefix` is called `msgPrefix`
because Lean reserves the word. -/
structure Message where
  message : List Char
  tags : Option (List TagRange)
  msgPrefix : Option PrefixRange
  command : Nat × Nat
  arguments : Option (List (Nat × Nat))
  deriving DecidableEq, Repr

/-- `parse_message` from `parser.rs`: UTF-8 validation (vacuous at the
`List Char` level), then tags, prefix, command and arguments in order, with
every phase error propagated and no `Message` produced on failure. -/
def parse_message (input : List Char) : Except MessageParseError Message :=
  match parse_tags input with
  | .error e => .error e
  | .ok (tags, p1) =>
    match parsePrefix input p1 with
    | .error e => .error e
    | .ok (pf, p2) =>
      match parse_command input p2 with
      | .error e => .error e
      | .ok (command, p3) =>
        match parse_args input p3 with
        | .error e => .error e
        | .ok (arguments, _) =>
          .ok { message := input, tags := tags, msgPrefix := pf,
                command := command, arguments := arguments }

/-- `Message::raw_command`. -/
def Message.raw_command (m : Message) : List Char :=
  slice m.message m.command

/-- The string sequence produced by `Message::raw_args` (the `ArgumentIter`
applied to the stored ranges). -/
def Message.rawArgs (m : Message) : List (List Char) :=
  (m.arguments.getD []).map (slice m.message)

/-- The pair sequence produced by `Message::raw_tags` (the `TagIter` applied
to the stored ranges). -/
def Message.rawTags (m : Message) : List (List Char × Option (List Char)) :=
  (m.tags.getD []).map fun t => (slice m.message t.1, t.2.map (slice m.message))

/-- `Message::prefix`: the structured `(origin, user?, host?)` accessor. -/
def Message.getPrefix (m : Message) :
    Option (List Char × Option (List Char) × Option (List Char)) :=
  match m.msgPrefix with
  | some pr =>
    some (slice m.message pr.prefixRange,
          pr.user.map (slice m.message), pr.host.map (slice m.message))
  | none => none

/-! ## Typed extraction protocol -/

/-- A command shape (`command.rs` trait `Command`): an associated command
name and an argument sequence decomposition.  The double-ended argument
iterator of the Rust code is modelled as the list of argument strings, which
supports consumption from the front (`head`) and the back (`reverse`). -/
structure CommandShape (α : Type) where
  NAME : List Char
  parse : List (List Char) → Option α

/-- `Command::try_match` (`command.rs` lines 56-65): compare the command to
`NAME` with an exact string comparison and call `parse` only on equality. -/
def CommandShape.try_match {α : Type} (T : CommandShape α) (command : List Char)
    (arguments : List (List Char)) : Option α :=
  if command = T.NAME then T.parse arguments else none

/-- `Message::command::<T>()` (`message/mod.rs`): run a shape against the raw
command and raw argument sequence of a parsed message. -/
def runCommand {α : Type} (T : CommandShape α) (input : List Char) : Option α :=
  match parse_message input with
  | .ok m => T.try_match m.raw_command m.rawArgs
  | .error _ => none

/-- The `PING` shape generated by the `command!` macro: one argument pulled
off the front of the iterator. -/
def PingShape : CommandShape (List Char) :=
  { NAME := "PING".data, parse := fun arguments => arguments.head? }

/-- Channel visibility classification of a `353` reply (`command.rs`). -/
inductive NamesReplyChannelType where
  | Secret
  | Private
  | Other
  deriving DecidableEq, Repr

/-- `str::split_whitespace`: the maximal nonempty runs of non-whitespace
characters. -/
def splitWhitespace : List Char → List (List Char)
  | [] => []
  | c :: rest =>
    if c.isWhitespace then splitWhitespace rest
    else
      match splitWhitespace rest with
      | [] => [[c]]
      | t :: ts =>
        if rest.head?.any Char.isWhitespace then [c] :: t :: ts
        else (c :: t) :: ts

/-- `NamesReply::parse` (`command.rs` lines 274-295): reverse the argument
iterator, pull the member list and the channel off the back, then classify
the optional leading visibility marker, defaulting to `Other`. -/
def NamesReply.parse (arguments : List (List Char)) :
    Option (NamesReplyChannelType × List Char × List (List Char)) :=
  let args := arguments.reverse
  match args with
  | [] => none
  | names :: args =>
    match args with
    | [] => none
    | channel :: args =>
      let channel_type :=
        match args.head? with
        | some ct =>
          if ct = "@".data then NamesReplyChannelType.Secret
          else if ct = "*".data then NamesReplyChannelType.Private
          else NamesReplyChannelType.Other
        | none => NamesReplyChannelType.Other
      some (channel_type, channel, splitWhitespace names)

/-- The `353` shape (`command.rs`). -/
def NamesReplyShape :
    CommandShape (NamesReplyChannelType × List Char × List (List Char)) :=
  { NAME := "353".data, parse := NamesReply.parse }

/-! ## Specification-side definitions

The definitions in this section are written from the words of the
specification, to be compared with the embedded source functions above. -/

/-- Splitting on single spaces, spec style: the (possibly empty) pieces
between the space characters, including the final piece. -/
def splitOnSpace : List Char → List (List Char)
  | [] => [[]]
  | c :: rest =>
    if c = ' ' then [] :: splitOnSpace rest
    else
      match splitOnSpace rest with
      | [] => [[c]]
      | t :: ts => (c :: t) :: ts

/-- The argument list denoted by an argument region whose pending partial
token is `pending`: the first `:` anywhere in the region ends scanning, the
remainder after it is the verbatim final argument, and the bytes of the
partial token before the `:` are discarded; without a `:` the region is
split on single spaces, the last piece ending at buffer end. -/
def specFrom (pending rest : List Char) : List (List Char) :=
  if ':' ∈ rest then
    (splitOnSpace (pending ++ rest.takeWhile (fun c => !(c == ':')))).dropLast
      ++ [(rest.dropWhile (fun c => !(c == ':'))).tail]
  else splitOnSpace (pending ++ rest)

/-- The argument list denoted by an argument region. -/
def argsSpec (region : List Char) : List (List Char) :=
  specFrom [] region

/-- Origin phase of the prefix grammar, from the words of the spec: the
origin token extends to the first of space, `!` or `@`; the rest of the
buffer follows it. -/
def originSpec (rest : List Char) : List Char × List Char :=
  let origin := rest.takeWhile fun c => !(c == ' ' || c == '!' || c == '@')
  (origin, rest.drop origin.length)

/-- User phase, from the words of the spec: if `!` follows the origin, a
user token extends to the first of space or `@`. -/
def userSpec (r1 : List Char) : Option (List Char) × List Char :=
  if r1.head? = some '!' then
    let u := r1.tail.takeWhile fun c => !(c == ' ' || c == '@')
    (some u, r1.tail.drop u.length)
  else (none, r1)

/-- Host phase, from the words of the spec: if `@` follows, a host token
extends to the first space. -/
def hostSpec (r2 : List Char) : Option (List Char) × List Char :=
  if r2.head? = some '@' then
    let h := r2.tail.takeWhile fun c => !(c == ' ')
    (some h, r2.tail.drop h.length)
  else (none, r2)

/-- Modelled from the spec (section 4.1, prefix phase): origin up to the
first of space, `!` or `@`; an optional `!`-delimited user up to space or
`@`; an optional `@`-delimited host up to space; terminated by a space that
must not be the last byte of the buffer. -/
def prefixSpec (rest : List Char) :
    Option (List Char × Option (List Char) × Option (List Char)) :=
  let o := originSpec rest
  let u := userSpec o.2
  let h := hostSpec u.2
  if h.2.head? = some ' ' ∧ h.2.tail ≠ [] then some (o.1, u.1, h.1) else none

/-- The raw command string of a successfully parsed line. -/
def parsedCommand (l : List Char) : Option (List Char) :=
  match parse_message l with
  | .ok m => some m.raw_command
  | .error _ => none

/-- The raw argument strings of a successfully parsed line. -/
def parsedArgs (l : List Char) : Option (List (List Char)) :=
  match parse_message l with
  | .ok m => some m.rawArgs
  | .error _ => none

/-- The raw tag pairs of a successfully parsed line. -/
def parsedTags (l : List Char) : Option (List (List Char × Option (List Char))) :=
  match parse_message l with
  | .ok m => some m.rawTags
  | .error _ => none

/-! ## Basic facts about `byteAt` and `slice` -/

theorem byteAt_lt {input : List Char} {position : Nat}
    (h : byteAt input position ≠ '\x00') : position < input.length := by
  by_contra hpos
  exact h (List.getD_eq_default input _ (by omega))

theorem byteAt_eq_getElem {input : List Char} {position : Nat}
    (h : position < input.length) : byteAt input position = input[position] :=
  List.getD_eq_getElem input _ h

theorem drop_eq_byteAt_cons {input : List Char} {position : Nat}
    (h : position < input.length) :
    input.drop position = byteAt input position :: input.drop (position + 1) := by
  rw [byteAt_eq_getElem h]
  exact List.drop_eq_getElem_cons h

theorem head?_drop_eq_byteAt {input : List Char} {position : Nat}
    (h : position < input.length) :
    (input.drop position).head? = some (byteAt input position) := by
  rw [drop_eq_byteAt_cons h]
  rfl

theorem slice_takeWhile (input : List Char) (a : Nat) (p : Char → Bool) :
    slice input (a, a + ((input.drop a).takeWhile p).length)
      = (input.drop a).takeWhile p := by
  unfold slice
  simp only [Nat.add_sub_cancel_left]
  exact (List.prefix_iff_eq_take.mp (List.takeWhile_prefix p)).symm

theorem slice_drop (input : List Char) (a : Nat) :
    slice input (a, input.length) = input.drop a := by
  unfold slice
  have : input.length - a = (input.drop a).length := (List.length_drop a input).symm
  rw [this, List.take_length]

theorem slice_extend {input : List Char} {a b : Nat} (hab : a ≤ b)
    (hb : b < input.length) :
    slice input (a, b + 1) = slice input (a, b) ++ [byteAt input b] := by
  unfold slice
  have h1 : b + 1 - a = (b - a) + 1 := by omega
  rw [h1]
  have h2 : b - a < (input.drop a).length := by
    rw [List.length_drop]
    omega
  rw [List.take_succ, List.getElem?_eq_getElem h2]
  have h3 : (input.drop a)[b - a] = input[b] := by
    rw [List.getElem_drop]
    congr 1
    omega
  rw [h3, byteAt_eq_getElem hb]
  rfl

theorem slice_nil (input : List Char) (a : Nat) : slice input (a, a) = [] := by
  unfold slice
  simp

/-! ## Characterization of the scanning loops -/

/-- With sufficient fuel, `scanUntil` stops exactly at the end of the
maximal run of characters that are neither stopping nor erroring: if that
point is inside the buffer it succeeds or errs according to the character
found there, and otherwise the scan has run past the end of the buffer. -/
theorem scanUntil_spec (stop err : Char → Bool) (input : List Char)
    (hstop : stop '\x00' = false) (herr : err '\x00' = false) :
    ∀ fuel position, input.length ≤ position + fuel →
    scanUntil stop err input fuel position =
      (let t := (input.drop position).takeWhile fun c => !(stop c) && !(err c)
       if position + t.length < input.length then
         if stop (byteAt input (position + t.length)) then .ok (position + t.length)
         else .error .unexpectedEndOfInput
       else .error .unexpectedEndOfInput) := by
  intro fuel
  induction fuel with
  | zero =>
    intro position hf
    have hd : input.drop position = [] := List.drop_eq_nil_of_le (by omega)
    have hlt : ¬ position < input.length := by omega
    simp [scanUntil, hd, hlt]
  | succ fuel ih =>
    intro position hf
    by_cases hp : position < input.length
    · have hd := drop_eq_byteAt_cons hp
      by_cases hs : stop (byteAt input position)
      · have ht : (input.drop position).takeWhile (fun c => !(stop c) && !(err c)) = [] := by
          rw [hd]
          simp [List.takeWhile, hs]
        simp [scanUntil, hs, ht, hp]
      · by_cases he : err (byteAt input position)
        · have ht : (input.drop position).takeWhile (fun c => !(stop c) && !(err c)) = [] := by
            rw [hd]
            simp [List.takeWhile, hs, he]
          simp [scanUntil, hs, he, ht, hp]
        · have ht : (input.drop position).takeWhile (fun c => !(stop c) && !(err c))
              = byteAt input position
                :: (input.drop (position + 1)).takeWhile (fun c => !(stop c) && !(err c)) := by
            rw [hd]
            simp [List.takeWhile, hs, he]
          by_cases hnext : input.length ≤ position + 1
          · have hmv : move_next position input.length = .error .unexpectedEndOfInput :=
              move_next_err hnext
            have hd1 : input.drop (position + 1) = [] := List.drop_eq_nil_of_le hnext
            have hlt : ¬ position + 1 < input.length := by omega
            simp [scanUntil, hs, he, hmv, ht, hd1, hlt]
          · have hmv : move_next position input.length = .ok (position + 1) := by
              unfold move_next
              rw [if_neg (by omega)]
            have hstep : scanUntil stop err input (fuel + 1) position
                = scanUntil stop err input fuel (position + 1) := by
              simp [scanUntil, hs, he, hmv]
            rw [hstep, ih (position + 1) (by omega)]
            simp only [ht, List.length_cons]
            have harith :
                position + (((input.drop (position + 1)).takeWhile
                    (fun c => !(stop c) && !(err c))).length + 1)
                  = position + 1
                    + ((input.drop (position + 1)).takeWhile
                        (fun c => !(stop c) && !(err c))).length := by
              omega
            rw [harith]
    · have hb : byteAt input position = '\x00' :=
        List.getD_eq_default input _ (by omega)
      have hd : input.drop position = [] := List.drop_eq_nil_of_le (by omega)
      have hmv : move_next position input.length = .error .unexpectedEndOfInput :=
        move_next_err (by omega)
      simp [scanUntil, hb, hstop, herr, hmv, hd, hp]

/-- Successful scans stop at a position inside the buffer, at or after the
start, on a stopping character. -/
theorem scanUntil_ok (stop err : Char → Bool) (input : List Char)
    (hstop : stop '\x00' = false) (herr : err '\x00' = false)
    {fuel position p : Nat} (hf : input.length ≤ position + fuel)
    (h : scanUntil stop err input fuel position = .ok p) :
    position ≤ p ∧ p < input.length ∧ stop (byteAt input p) = true ∧
      p = position + ((input.drop position).takeWhile
        (fun c => !(stop c) && !(err c))).length := by
  rw [scanUntil_spec stop err input hstop herr fuel position hf] at h
  simp only at h
  split at h
  · split at h
    · rename_i h1 h2
      injection h with h
      subst h
      exact ⟨by omega, h1, h2, rfl⟩
    · exact absurd h (by simp)
  · exact absurd h (by simp)

/-- With sufficient fuel, the command scan advances to the end of the
maximal run of non-space characters. -/
theorem cmdScan_spec (input : List Char) :
    ∀ fuel position, input.length ≤ position + fuel →
    cmdScan input fuel position
      = position + ((input.drop position).takeWhile (fun c => !(c == ' '))).length := by
  intro fuel
  induction fuel with
  | zero =>
    intro position hf
    have hd : input.drop position = [] := List.drop_eq_nil_of_le (by omega)
    simp [cmdScan, hd]
  | succ fuel ih =>
    intro position hf
    by_cases hp : position < input.length
    · have hd := drop_eq_byteAt_cons hp
      by_cases hs : byteAt input position = ' '
      · have ht : (input.drop position).takeWhile (fun c => !(c == ' ')) = [] := by
          rw [hd]
          simp [List.takeWhile, hs]
        simp [cmdScan, hp, hs, ht]
      · have hb : (byteAt input position == ' ') = false := by
          simp [hs]
        have ht : (input.drop position).takeWhile (fun c => !(c == ' '))
            = byteAt input position
              :: (input.drop (position + 1)).takeWhile (fun c => !(c == ' ')) := by
          rw [hd]
          simp [List.takeWhile, hb]
        have hstep : cmdScan input (fuel + 1) position = cmdScan input fuel (position + 1) := by
          simp [cmdScan, hp, hs]
        rw [hstep, ih (position + 1) (by omega), ht, List.length_cons]
        omega
    · have hd : input.drop position = [] := List.drop_eq_nil_of_le (by omega)
      simp [cmdScan, hp, hd]

/-! ## Facts about `splitOnSpace` -/

theorem splitOnSpace_ne_nil (s : List Char) : splitOnSpace s ≠ [] := by
  match s with
  | [] => simp [splitOnSpace]
  | c :: rest =>
    by_cases h : c = ' '
    · simp [splitOnSpace, h]
    · have := splitOnSpace_ne_nil rest
      simp only [splitOnSpace, if_neg h]
      split


      · simp
      · simp

theorem splitOnSpace_no_space {s : List Char} (h : ∀ c ∈ s, c ≠ ' ') :
    splitOnSpace s = [s] := by
  match s with
  | [] => rfl
  | c :: rest =>
    have hc : c ≠ ' ' := h c (by simp)
    have hrest := splitOnSpace_no_space (fun x hx => h x (List.mem_cons_of_mem c hx))
    simp only [splitOnSpace, if_neg hc, hrest]

/-- A space splices the pieces of the two sides together. -/
theorem splitOnSpace_append (a b : List Char) :
    splitOnSpace (a ++ ' ' :: b) = splitOnSpace a ++ splitOnSpace b := by
  match a with
  | [] => simp [splitOnSpace]
  | c :: a' =>
    by_cases h : c = ' '
    · rw [List.cons_append, splitOnSpace, if_pos h, splitOnSpace_append a' b,
        splitOnSpace, if_pos h, List.cons_append]
    · rw [List.cons_append, splitOnSpace, if_neg h, splitOnSpace_append a' b]
      conv_rhs => rw [splitOnSpace, if_neg h]
      match hsa : splitOnSpace a' with
      | [] => exact absurd hsa (splitOnSpace_ne_nil a')
      | t :: ts => simp

/-! ## Stepping lemmas for `specFrom` -/

theorem specFrom_colon (pending rest' : List Char) (hp : ∀ c ∈ pending, c ≠ ' ') :
    specFrom pending (':' :: rest') = [rest'] := by
  unfold specFrom
  rw [if_pos (List.mem_cons_self ':' rest')]
  have htw : (':' :: rest').takeWhile (fun c => !(c == ':')) = [] := by
    simp [List.takeWhile]
  have hdw : (':' :: rest').dropWhile (fun c => !(c == ':')) = ':' :: rest' := by
    simp [List.dropWhile]
  rw [htw, hdw, List.append_nil, splitOnSpace_no_space hp]
  simp

theorem specFrom_space (pending rest' : List Char) (hp : ∀ c ∈ pending, c ≠ ' ') :
    specFrom pending (' ' :: rest') = pending :: specFrom [] rest' := by
  unfold specFrom
  have hmem : (':' ∈ ' ' :: rest') ↔ (':' ∈ rest') := by simp
  have htw : (' ' :: rest').takeWhile (fun c => !(c == ':'))
      = ' ' :: rest'.takeWhile (fun c => !(c == ':')) := by
    simp [List.takeWhile]
  have hdw : (' ' :: rest').dropWhile (fun c => !(c == ':'))
      = rest'.dropWhile (fun c => !(c == ':')) := by
    simp [List.dropWhile]
  by_cases hc : ':' ∈ rest'
  · rw [if_pos (hmem.mpr hc), if_pos hc, htw, hdw,
      splitOnSpace_append pending _, splitOnSpace_no_space hp, List.nil_append,
      List.dropLast_append_of_ne_nil [pending] (splitOnSpace_ne_nil _)]
    simp
  · rw [if_neg (fun h => hc (hmem.mp h)), if_neg hc,
      splitOnSpace_append pending rest', splitOnSpace_no_space hp, List.nil_append]
    simp

theorem specFrom_char (pending : List Char) (c : Char) (rest' : List Char)
    (hc : c ≠ ':') :
    specFrom pending (c :: rest') = specFrom (pending ++ [c]) rest' := by
  unfold specFrom
  have hmem : (':' ∈ c :: rest') ↔ (':' ∈ rest') := by
    rw [List.mem_cons]
    constructor
    · rintro (h | h)
      · exact absurd h.symm hc
      · exact h
    · exact Or.inr
  have hbc : (c == ':') = false := by simp [hc]
  have htw : (c :: rest').takeWhile (fun x => !(x == ':'))
      = c :: rest'.takeWhile (fun x => !(x == ':')) := by
    simp [List.takeWhile, hbc]
  have hdw : (c :: rest').dropWhile (fun x => !(x == ':'))
      = rest'.dropWhile (fun x => !(x == ':')) := by
    simp [List.dropWhile, hbc]
  have hassoc : ∀ t : List Char, pending ++ c :: t = (pending ++ [c]) ++ t := by
    intro t
    simp
  by_cases hcm : ':' ∈ rest'
  · rw [if_pos (hmem.mpr hcm), if_pos hcm, htw, hdw, hassoc]
  · rw [if_neg (fun h => hcm (hmem.mp h)), if_neg hcm, hassoc]

/-! ## Characterization of the argument loop -/

/-- With sufficient fuel, the argument loop realizes `specFrom`: the ranges
it accumulates denote precisely the argument list of the specification,
relative to the pending partial token scanned so far. -/
theorem argsLoop_spec (input : List Char) :
    ∀ fuel position arg_start args,
    arg_start ≤ position → position < input.length → input.length ≤ position + fuel →
    (∀ c ∈ slice input (arg_start, position), c ≠ ' ') →
    (argsLoop input fuel position arg_start args).1.map (slice input)
      = args.map (slice input)
        ++ specFrom (slice input (arg_start, position)) (input.drop position) := by
  intro fuel
  induction fuel with
  | zero =>
    intro position arg_start args h1 h2 h3 h4
    exact absurd h2 (by omega)
  | succ fuel ih =>
    intro position arg_start args h1 h2 h3 h4
    have hd := drop_eq_byteAt_cons h2
    by_cases hcolon : byteAt input position = ':'
    · rw [hd, hcolon, specFrom_colon _ _ h4]
      have hstep : argsLoop input (fuel + 1) position arg_start args
          = (args ++ [(position + 1, input.length)], position + 1) := by
        simp [argsLoop, hcolon]
      rw [hstep]
      simp [slice_drop]
    · by_cases hspace : byteAt input position = ' '
      · rw [hd, hspace, specFrom_space _ _ h4]
        by_cases hend : input.length ≤ position + 1
        · have hstep : argsLoop input (fuel + 1) position arg_start args
              = (args ++ [(arg_start, position)] ++ [(position + 1, position + 1)],
                 position + 1) := by
            simp [argsLoop, hcolon, hspace, hend]
          have hrest : input.drop (position + 1) = [] := List.drop_eq_nil_of_le hend
          rw [hstep, hrest]
          simp [slice_nil, specFrom, splitOnSpace]
        · have hstep : argsLoop input (fuel + 1) position arg_start args
              = argsLoop input fuel (position + 1) (position + 1)
                  (args ++ [(arg_start, position)]) := by
            simp [argsLoop, hcolon, hspace, hend]
          rw [hstep, ih (position + 1) (position + 1) (args ++ [(arg_start, position)])
            (le_refl _) (by omega) (by omega) (by simp [slice_nil]), slice_nil]
          simp
      · have hpend : ∀ ch ∈ slice input (arg_start, position + 1), ch ≠ ' ' := by
          rw [slice_extend h1 h2]
          intro ch hch
          rcases List.mem_append.mp hch with h | h
          · exact h4 ch h
          · rw [List.mem_singleton] at h
            subst h
            exact hspace
        rw [hd, specFrom_char _ _ _ hcolon, ← slice_extend h1 h2]
        by_cases hend : input.length ≤ position + 1
        · have hstep : argsLoop input (fuel + 1) position arg_start args
              = (args ++ [(arg_start, position + 1)], position + 1) := by
            simp [argsLoop, hcolon, hspace, hend]
          have hrest : input.drop (position + 1) = [] := List.drop_eq_nil_of_le hend
          rw [hstep, hrest]
          simp [specFrom, splitOnSpace_no_space hpend]
        · have hstep : argsLoop input (fuel + 1) position arg_start args
              = argsLoop input fuel (position + 1) arg_start args := by
            simp [argsLoop, hcolon, hspace, hend]
          rw [hstep, ih (position + 1) arg_start args (by omega) (by omega) (by omega) hpend]

/-! ## Inversion of `parse_message` -/

/-- A successful parse is exactly a successful run of the four phases in
order, and the resulting record holds precisely their outputs. -/
theorem parse_message_inv {input : List Char} {m : Message}
    (h : parse_message input = .ok m) :
    ∃ tags p1 pf p2 cmd p3 args p4,
      parse_tags input = .ok (tags, p1) ∧
      parsePrefix input p1 = .ok (pf, p2) ∧
      parse_command input p2 = .ok (cmd, p3) ∧
      parse_args input p3 = .ok (args, p4) ∧
      m = { message := input, tags := tags, msgPrefix := pf,
            command := cmd, arguments := args } := by
  unfold parse_message at h
  cases h1 : parse_tags input with
  | error e =>
    simp only [h1] at h
    exact absurd h (by simp)
  | ok v1 =>
    obtain ⟨tags, p1⟩ := v1
    simp only [h1] at h
    cases h2 : parsePrefix input p1 with
    | error e =>
      simp only [h2] at h
      exact absurd h (by simp)
    | ok v2 =>
      obtain ⟨pf, p2⟩ := v2
      simp only [h2] at h
      cases h3 : parse_command input p2 with
      | error e =>
        simp only [h3] at h
        exact absurd h (by simp)
      | ok v3 =>
        obtain ⟨cmd, p3⟩ := v3
        simp only [h3] at h
        cases h4 : parse_args input p3 with
        | error e =>
          simp only [h4] at h
          exact absurd h (by simp)
        | ok v4 =>
          obtain ⟨args, p4⟩ := v4
          simp only [h4] at h
          injection h with h
          exact ⟨tags, p1, pf, p2, cmd, p3, args, p4, rfl, h2, h3, h4, h.symm⟩

/-- A failing command phase makes the whole parse fail with the same
error, the earlier phases having succeeded. -/
theorem parse_message_err_of_command {input : List Char}
    {tags : Option (List TagRange)} {p1 : Nat} {pf : Option PrefixRange} {p2 : Nat}
    {e : MessageParseError}
    (h1 : parse_tags input = .ok (tags, p1))
    (h2 : parsePrefix input p1 = .ok (pf, p2))
    (h3 : parse_command input p2 = .error e) :
    parse_message input = .error e := by
  simp [parse_message, h1, h2, h3]

/-! ## The tag loop never records an empty value -/

/-- Every value range recorded by the tag loop is nonempty and starts inside
the buffer. -/
theorem tagsLoop_values {input : List Char} :
    ∀ (fuel position : Nat) (acc tags : List TagRange) (p : Nat),
    tagsLoop input fuel position acc = .ok (tags, p) →
    (∀ t ∈ acc, ∀ r, t.2 = some r → r.1 < r.2 ∧ r.1 < input.length) →
    ∀ t ∈ tags, ∀ r, t.2 = some r → r.1 < r.2 ∧ r.1 < input.length := by
  intro fuel
  induction fuel with
  | zero =>
    intro position acc tags p h
    exact absurd h (by simp [tagsLoop])
  | succ fuel ih =>
    intro position acc tags p h hacc
    rw [tagsLoop] at h
    cases hk : scanUntil keyStop keyErr input (input.length + 1) position with
    | error e =>
      rw [hk] at h
      exact absurd h (by simp)
    | ok kpos =>
      rw [hk] at h
      simp only at h
      cases hv0 : (if byteAt input kpos = '=' then move_next kpos input.length
          else Except.ok kpos) with
      | error e =>
        rw [hv0] at h
        exact absurd h (by simp)
      | ok value_start =>
        rw [hv0] at h
        simp only at h
        cases hv : scanUntil valueStop noErr input (input.length + 1) value_start with
        | error e =>
          rw [hv] at h
          exact absurd h (by simp)
        | ok vpos =>
          rw [hv] at h
          simp only at h
          have hfacts := scanUntil_ok valueStop noErr input (by decide) rfl
            (by omega : input.length ≤ value_start + (input.length + 1)) hv
          have hgood : ∀ t ∈ acc ++ [((position, kpos),
              if value_start = vpos then none else some (value_start, vpos))],
              ∀ r, t.2 = some r → r.1 < r.2 ∧ r.1 < input.length := by
            intro t ht r hr
            rcases List.mem_append.mp ht with hmem | hmem
            · exact hacc t hmem r hr
            · rw [List.mem_singleton] at hmem
              subst hmem
              simp only at hr
              by_cases heq : value_start = vpos
              · rw [if_pos heq] at hr
                exact absurd hr (by simp)
              · rw [if_neg heq] at hr
                injection hr with hr
                subst hr
                exact ⟨by omega, by omega⟩
          by_cases hsp : byteAt input vpos = ' '
          · rw [if_pos hsp] at h
            cases hm : move_next vpos input.length with
            | error e =>
              rw [hm] at h
              exact absurd h (by simp)
            | ok pnext =>
              rw [hm] at h
              simp only at h
              injection h with h
              injection h with htags hp
              subst htags
              exact hgood
          · rw [if_neg hsp] at h
            cases hm : move_next vpos input.length with
            | error e =>
              rw [hm] at h
              exact absurd h (by simp)
            | ok pnext =>
              rw [hm] at h
              simp only at h
              exact ih pnext _ tags p h hgood

/-! ## Characterization of the prefix phase -/

theorem predO_eq : (fun c => !(originStop c) && !(noErr c))
    = fun c => !(c == ' ' || c == '!' || c == '@') := by
  funext c
  simp [originStop, noErr]

theorem predU_eq : (fun c => !(userStop c) && !(noErr c))
    = fun c => !(c == ' ' || c == '@') := by
  funext c
  simp [userStop, noErr]

theorem predH_eq : (fun c => !(hostStop c) && !(noErr c))
    = fun c => !(c == ' ') := by
  funext c
  simp [hostStop, noErr]

theorem drop_drop_eq (input : List Char) (a k : Nat) :
    (input.drop a).drop k = input.drop (a + k) := by
  rw [List.drop_drop, Nat.add_comm]

theorem originSpec_at (input : List Char) (a p1 : Nat)
    (hp1 : p1 = a + ((input.drop a).takeWhile
      (fun c => !(c == ' ' || c == '!' || c == '@'))).length) :
    originSpec (input.drop a) = (slice input (a, p1), input.drop p1) := by
  subst hp1
  simp only [originSpec]
  rw [slice_takeWhile, drop_drop_eq]

theorem userSpec_bang {input : List Char} {p1 p2 : Nat}
    (hlt : p1 < input.length) (hbang : byteAt input p1 = '!')
    (hp2 : p2 = (p1 + 1) + ((input.drop (p1 + 1)).takeWhile
      (fun c => !(c == ' ' || c == '@'))).length) :
    userSpec (input.drop p1) = (some (slice input (p1 + 1, p2)), input.drop p2) := by
  subst hp2
  simp only [userSpec]
  rw [head?_drop_eq_byteAt hlt, hbang, if_pos rfl, drop_eq_byteAt_cons hlt, hbang]
  simp only [List.tail_cons]
  rw [slice_takeWhile, drop_drop_eq]

theorem userSpec_nobang {input : List Char} {p1 : Nat}
    (hlt : p1 < input.length) (hbang : byteAt input p1 ≠ '!') :
    userSpec (input.drop p1) = (none, input.drop p1) := by
  simp only [userSpec]
  rw [head?_drop_eq_byteAt hlt, if_neg (by simpa using hbang)]

theorem hostSpec_at {input : List Char} {p2 p3 : Nat}
    (hlt : p2 < input.length) (hat : byteAt input p2 = '@')
    (hp3 : p3 = (p2 + 1) + ((input.drop (p2 + 1)).takeWhile
      (fun c => !(c == ' '))).length) :
    hostSpec (input.drop p2) = (some (slice input (p2 + 1, p3)), input.drop p3) := by
  subst hp3
  simp only [hostSpec]
  rw [head?_drop_eq_byteAt hlt, hat, if_pos rfl, drop_eq_byteAt_cons hlt, hat]
  simp only [List.tail_cons]
  rw [slice_takeWhile, drop_drop_eq]

theorem hostSpec_noat {input : List Char} {p2 : Nat}
    (hlt : p2 < input.length) (hat : byteAt input p2 ≠ '@') :
    hostSpec (input.drop p2) = (none, input.drop p2) := by
  simp only [hostSpec]
  rw [head?_drop_eq_byteAt hlt, if_neg (by simpa using hat)]

theorem drop_succ_ne_nil {input : List Char} {p : Nat} (h : p + 1 < input.length) :
    input.drop (p + 1) ≠ [] := by
  intro hc
  have hlen := congrArg List.length hc
  rw [List.length_drop] at hlen
  simp at hlen
  omega

/-- A successful prefix phase starting at a `:` produces exactly the ranges
described by the specification: `prefixSpec` on the remainder of the buffer
is defined and returns the very substrings the stored ranges denote. -/
theorem parsePrefix_ok_spec {input : List Char} {position : Nat}
    (hcolon : byteAt input position = ':')
    {pf : Option PrefixRange} {pnext : Nat}
    (h : parsePrefix input position = .ok (pf, pnext)) :
    ∃ pr, pf = some pr ∧
      prefixSpec (input.drop (position + 1))
        = some (slice input pr.prefixRange,
                pr.user.map (slice input), pr.host.map (slice input)) := by
  have hpos : position < input.length := byteAt_lt (by rw [hcolon]; decide)
  unfold parsePrefix at h
  rw [if_neg (by omega), if_pos hcolon] at h
  cases hm0 : move_next position input.length with
  | error e =>
    rw [hm0] at h
    exact absurd h (by simp)
  | ok start0 =>
    rw [hm0] at h
    simp only at h
    obtain ⟨hs0, hs0lt⟩ := move_next_ok hm0
    subst hs0
    cases hsc1 : scanUntil originStop noErr input (input.length + 1) (position + 1) with
    | error e =>
      rw [hsc1] at h
      exact absurd h (by simp)
    | ok p1 =>
      rw [hsc1] at h
      simp only at h
      obtain ⟨hp1ge, hp1lt, hp1stop, hp1eq⟩ :=
        scanUntil_ok originStop noErr input (by decide) rfl (by omega) hsc1
      rw [predO_eq] at hp1eq
      have e1 := originSpec_at input (position + 1) p1 hp1eq
      by_cases hbang : byteAt input p1 = '!'
      · rw [if_pos hbang] at h
        cases hm1 : move_next p1 input.length with
        | error e =>
          rw [hm1] at h
          exact absurd h (by simp)
        | ok ustart =>
          rw [hm1] at h
          simp only at h
          obtain ⟨hu0, hu0lt⟩ := move_next_ok hm1
          subst hu0
          cases hsc2 : scanUntil userStop noErr input (input.length + 1) (p1 + 1) with
          | error e =>
            rw [hsc2] at h
            exact absurd h (by simp)
          | ok p2 =>
            rw [hsc2] at h
            simp only at h
            obtain ⟨hp2ge, hp2lt, hp2stop, hp2eq⟩ :=
              scanUntil_ok userStop noErr input (by decide) rfl (by omega) hsc2
            rw [predU_eq] at hp2eq
            have e2 := userSpec_bang hp1lt hbang hp2eq
            by_cases hat : byteAt input p2 = '@'
            · rw [if_pos hat] at h
              cases hm2 : move_next p2 input.length with
              | error e =>
                rw [hm2] at h
                exact absurd h (by simp)
              | ok hstart =>
                rw [hm2] at h
                simp only at h
                obtain ⟨hh0, hh0lt⟩ := move_next_ok hm2
                subst hh0
                cases hsc3 : scanUntil hostStop noErr input (input.length + 1) (p2 + 1) with
                | error e =>
                  rw [hsc3] at h
                  exact absurd h (by simp)
                | ok p3 =>
                  rw [hsc3] at h
                  simp only at h
                  obtain ⟨hp3ge, hp3lt, hp3stop, hp3eq⟩ :=
                    scanUntil_ok hostStop noErr input (by decide) rfl (by omega) hsc3
                  rw [predH_eq] at hp3eq
                  have e3 := hostSpec_at hp2lt hat hp3eq
                  have hsp : byteAt input p3 = ' ' := by
                    have hx := hp3stop
                    simp [hostStop] at hx
                    exact hx
                  cases hm3 : move_next p3 input.length with
                  | error e =>
                    rw [hm3] at h
                    exact absurd h (by simp)
                  | ok p4 =>
                    rw [hm3] at h
                    simp only at h
                    obtain ⟨hp4, hp4lt⟩ := move_next_ok hm3
                    injection h with h
                    obtain ⟨hpf, hpn⟩ := Prod.mk.injEq .. |>.mp h
                    refine ⟨_, hpf.symm, ?_⟩
                    unfold prefixSpec
                    simp only [e1, e2, e3]
                    rw [if_pos ⟨by rw [head?_drop_eq_byteAt hp3lt, hsp],
                      by rw [drop_eq_byteAt_cons hp3lt]
                         exact drop_succ_ne_nil (by omega)⟩]
                    simp
            · rw [if_neg hat] at h
              simp only at h
              have e3 := hostSpec_noat hp2lt hat
              have hsp : byteAt input p2 = ' ' := by
                have hx := hp2stop
                simp [userStop] at hx
                rcases hx with hx | hx
                · exact hx
                · exact absurd hx hat
              cases hm3 : move_next p2 input.length with
              | error e =>
                rw [hm3] at h
                exact absurd h (by simp)
              | ok p4 =>
                rw [hm3] at h
                simp only at h
                obtain ⟨hp4, hp4lt⟩ := move_next_ok hm3
                injection h with h
                obtain ⟨hpf, hpn⟩ := Prod.mk.injEq .. |>.mp h
                refine ⟨_, hpf.symm, ?_⟩
                unfold prefixSpec
                simp only [e1, e2, e3]
                rw [if_pos ⟨by rw [head?_drop_eq_byteAt hp2lt, hsp],
                  by rw [drop_eq_byteAt_cons hp2lt]
                     exact drop_succ_ne_nil (by omega)⟩]
                simp
      · rw [if_neg hbang] at h
        simp only at h
        have e2 := userSpec_nobang hp1lt hbang
        by_cases hat : byteAt input p1 = '@'
        · rw [if_pos hat] at h
          cases hm2 : move_next p1 input.length with
          | error e =>
            rw [hm2] at h
            exact absurd h (by simp)
          | ok hstart =>
            rw [hm2] at h
            simp only at h
            obtain ⟨hh0, hh0lt⟩ := move_next_ok hm2
            subst hh0
            cases hsc3 : scanUntil hostStop noErr input (input.length + 1) (p1 + 1) with
            | error e =>
              rw [hsc3] at h
              exact absurd h (by simp)
            | ok p3 =>
              rw [hsc3] at h
              simp only at h
              obtain ⟨hp3ge, hp3lt, hp3stop, hp3eq⟩ :=
                scanUntil_ok hostStop noErr input (by decide) rfl (by omega) hsc3
              rw [predH_eq] at hp3eq
              have e3 := hostSpec_at hp1lt hat hp3eq
              have hsp : byteAt input p3 = ' ' := by
                have hx := hp3stop
                simp [hostStop] at hx
                exact hx
              cases hm3 : move_next p3 input.length with
              | error e =>
                rw [hm3] at h
                exact absurd h (by simp)
              | ok p4 =>
                rw [hm3] at h
                simp only at h
                obtain ⟨hp4, hp4lt⟩ := move_next_ok hm3
                injection h with h
                obtain ⟨hpf, hpn⟩ := Prod.mk.injEq .. |>.mp h
                refine ⟨_, hpf.symm, ?_⟩
                unfold prefixSpec
                simp only [e1, e2, e3]
                rw [if_pos ⟨by rw [head?_drop_eq_byteAt hp3lt, hsp],
                  by rw [drop_eq_byteAt_cons hp3lt]
                     exact drop_succ_ne_nil (by omega)⟩]
                simp
        · rw [if_neg hat] at h
          simp only at h
          have e3 := hostSpec_noat hp1lt hat
          have hsp : byteAt input p1 = ' ' := by
            by_cases hc : byteAt input p1 = ' '
            · exact hc
            · exfalso
              have hx := hp1stop
              simp [originStop, hc, hbang, hat] at hx
          cases hm3 : move_next p1 input.length with
          | error e =>
            rw [hm3] at h
            exact absurd h (by simp)
          | ok p4 =>
            rw [hm3] at h
            simp only at h
            obtain ⟨hp4, hp4lt⟩ := move_next_ok hm3
            injection h with h
            obtain ⟨hpf, hpn⟩ := Prod.mk.injEq .. |>.mp h
            refine ⟨_, hpf.symm, ?_⟩
            unfold prefixSpec
            simp only [e1, e2, e3]
            rw [if_pos ⟨by rw [head?_drop_eq_byteAt hp1lt, hsp],
              by rw [drop_eq_byteAt_cons hp1lt]
                 exact drop_succ_ne_nil (by omega)⟩]
            simp

/-! ## Further index and `takeWhile` facts -/

theorem byteAt_append_left {c t : List Char} {i : Nat} (h : i < c.length) :
    byteAt (c ++ t) i = byteAt c i :=
  List.getD_append c t '\x00' i h

theorem byteAt_concat_length (c : List Char) (a : Char) :
    byteAt (c ++ [a]) c.length = a := by
  unfold byteAt
  rw [List.getD_append_right c [a] '\x00' c.length (le_refl _)]
  simp

theorem byteAt_drop (input : List Char) (pos i : Nat) :
    byteAt (input.drop pos) i = byteAt input (pos + i) := by
  unfold byteAt
  rw [List.getD_eq_getElem?_getD, List.getD_eq_getElem?_getD, List.getElem?_drop]

theorem takeWhile_nospace_self {c : List Char} (h : ∀ ch ∈ c, ch ≠ ' ') :
    c.takeWhile (fun x => !(x == ' ')) = c := by
  induction c with
  | nil => rfl
  | cons a rest ih =>
    have ha : (a == ' ') = false := by simp [h a (List.mem_cons_self a rest)]
    simp [List.takeWhile, ha, ih fun x hx => h x (List.mem_cons_of_mem a hx)]

theorem takeWhile_nospace_append {c : List Char} (t : List Char)
    (h : ∀ ch ∈ c, ch ≠ ' ') :
    (c ++ ' ' :: t).takeWhile (fun x => !(x == ' ')) = c := by
  induction c with
  | nil => simp [List.takeWhile]
  | cons a rest ih =>
    have ha : (a == ' ') = false := by simp [h a (List.mem_cons_self a rest)]
    simp [List.takeWhile, ha, ih fun x hx => h x (List.mem_cons_of_mem a hx)]

/-- The length of a `takeWhile` over a suffix of the buffer, determined by a
run of satisfying characters ended by a failing one. -/
theorem takeWhile_length_eq (p : Char → Bool) (input : List Char) :
    ∀ (a k : Nat), a + k < input.length →
    (∀ i, i < k → p (byteAt input (a + i)) = true) →
    p (byteAt input (a + k)) = false →
    ((input.drop a).takeWhile p).length = k := by
  intro a k
  induction k generalizing a with
  | zero =>
    intro hk _ hfalse
    have hd := drop_eq_byteAt_cons (show a < input.length by omega)
    rw [hd]
    rw [show a + 0 = a from rfl] at hfalse
    simp [List.takeWhile, hfalse]
  | succ k ih =>
    intro hk htrue hfalse
    have ha : a < input.length := by omega
    have hd := drop_eq_byteAt_cons ha
    have hp : p (byteAt input a) = true := by
      have := htrue 0 (by omega)
      rwa [show a + 0 = a from rfl] at this
    rw [hd]
    simp only [List.takeWhile, hp, List.length_cons]
    rw [ih (a + 1) (by omega)
      (fun i hi => by
        have := htrue (i + 1) (by omega)
        rwa [show a + (i + 1) = a + 1 + i by omega] at this)
      (by rwa [show a + 1 + k = a + (k + 1) by omega])]

/-! ## Membership of the empty piece in `splitOnSpace` -/

theorem splitOnSpace_ends_space {s : List Char} (hne : s ≠ [])
    (hlast : s.getLast? = some ' ') : [] ∈ splitOnSpace s := by
  have hs : s = s.dropLast ++ ' ' :: [] := by
    have hg := List.getLast?_eq_getLast s hne
    rw [hg] at hlast
    injection hlast with hlast
    conv_lhs => rw [← List.dropLast_append_getLast hne]
    rw [hlast]
  rw [hs, splitOnSpace_append]
  simp [splitOnSpace]

theorem splitOnSpace_double_space (a b : List Char) :
    [] ∈ (splitOnSpace (a ++ ' ' :: ' ' :: b)).dropLast := by
  rw [splitOnSpace_append]
  rw [show splitOnSpace (' ' :: b) = [] :: splitOnSpace b from by simp [splitOnSpace]]
  rw [List.dropLast_append_of_ne_nil _ (by simp)]
  rw [List.dropLast_cons_of_ne_nil (splitOnSpace_ne_nil b)]
  exact List.mem_append.mpr (Or.inr (List.mem_cons_self _ _))

theorem takeWhile_nocolon_append {a : List Char} (b : List Char) (h : ':' ∉ a) :
    (a ++ ' ' :: ' ' :: b).takeWhile (fun x => !(x == ':'))
      = a ++ ' ' :: ' ' :: b.takeWhile (fun x => !(x == ':')) := by
  induction a with
  | nil => simp [List.takeWhile]
  | cons c rest ih =>
    have hc : (c == ':') = false := by
      simp only [beq_eq_false_iff_ne]
      intro hc
      exact h (by rw [hc]; exact List.mem_cons_self _ _)
    simp [List.takeWhile, hc, ih fun hx => h (List.mem_cons_of_mem c hx)]

theorem argsSpec_ends_space {s : List Char} (hne : s ≠ [])
    (hlast : s.getLast? = some ' ') (hc : ':' ∉ s) : [] ∈ argsSpec s := by
  unfold argsSpec specFrom
  rw [if_neg hc, List.nil_append]
  exact splitOnSpace_ends_space hne hlast

theorem argsSpec_double_space (a b : List Char) (h : ':' ∉ a) :
    [] ∈ argsSpec (a ++ ' ' :: ' ' :: b) := by
  unfold argsSpec specFrom
  by_cases hc : ':' ∈ a ++ ' ' :: ' ' :: b
  · rw [if_pos hc, List.nil_append, takeWhile_nocolon_append b h]
    exact List.mem_append.mpr (Or.inl (splitOnSpace_double_space a _))
  · rw [if_neg hc, List.nil_append]
    exact List.mem_of_mem_dropLast (splitOnSpace_double_space a b)

/-! ## Claims -/

/-- C1, counterexample: on the line `TEST ab:cd` the colon sits in the
middle of a token, yet the parser takes the remainder after it as the single
final argument, discarding `ab`; the claimed reading (colon significant only
at the start of a token) would give the argument list `["ab:cd"]`. -/
theorem C1_colon_midtoken_counterexample :
    parsedArgs "TEST ab:cd".data = some ["cd".data]
    ∧ some ["cd".data] ≠ some (["ab:cd".data] : List (List Char)) := by
  constructor
  · rfl
  · decide

/-- C1, amended: for every successfully parsed line the argument phase
yields no argument list at all when nothing follows the command, and
otherwise exactly the list described by `argsSpec`: the first `:`
encountered anywhere in the argument region — even in the middle of a
token — ends scanning, with the remainder after the colon taken verbatim as
the final argument and the bytes of the current partial token before the
colon discarded; in the absence of a `:` the region is split on single
spaces, the last token ending at buffer end. -/
theorem C1_arguments_characterization (input : List Char) (pos : Nat) :
    (input.length ≤ pos → parse_args input pos = .ok (none, pos))
    ∧ (pos < input.length → ∃ ranges p, parse_args input pos = .ok (some ranges, p)
        ∧ ranges.map (slice input) = argsSpec (input.drop pos)) := by
  constructor
  · intro h
    unfold parse_args
    rw [if_pos h]
  · intro h
    unfold parse_args
    rw [if_neg (by omega)]
    refine ⟨_, _, rfl, ?_⟩
    have hchar := argsLoop_spec input (input.length + 1) pos pos []
      (le_refl pos) h (by omega) (by simp [slice_nil])
    rw [slice_nil] at hchar
    simpa [argsSpec] using hchar

/-- C1, witness: the characterization applied to the argument region
`ab:cd x` starting at position 0. -/
theorem C1_arguments_characterization_witness :
    (0 < "ab:cd x".data.length)
    ∧ ∃ ranges p, parse_args "ab:cd x".data 0 = .ok (some ranges, p)
        ∧ ranges.map (slice "ab:cd x".data) = argsSpec ("ab:cd x".data.drop 0) :=
  ⟨by decide, (C1_arguments_characterization "ab:cd x".data 0).2 (by decide)⟩

/-- C2, counterexample: the single-space line parses successfully and the
resulting record has the empty string as its command, so a whitespace-only
line does not fail and an empty command is observable. -/
theorem C2_whitespace_line_counterexample :
    parse_message [' ']
      = .ok { message := [' '], tags := none, msgPrefix := none,
              command := (1, 1), arguments := none }
    ∧ parsedCommand [' '] = some [] := by
  constructor
  · rfl
  · rfl

/-- C2, amended: an empty input line fails with the unexpected end of input
classification, but a whitespace-only line may parse successfully and then
produces a `Message` whose command is the empty string — for example the
single-space line. -/
theorem C2_empty_line_amended :
    parse_message ([] : List Char) = .error .unexpectedEndOfInput
    ∧ parse_message [' ']
      = .ok { message := [' '], tags := none, msgPrefix := none,
              command := (1, 1), arguments := none }
    ∧ ({ message := [' '], tags := none, msgPrefix := none,
         command := (1, 1), arguments := none } : Message).raw_command = [] :=
  ⟨rfl, rfl, rfl⟩

/-- C3: for every parsed message with tags, a tag value that is present is
never the empty string — the recorded value range is nonempty — and the
example line `@a=1;b=2;d=;f;a\b=3;c= TEST` yields exactly the claimed tag
sequence and the command `TEST`. -/
theorem C3_tag_values_nonempty :
    (∀ (input : List Char) (tags : List TagRange) (pos : Nat),
      parse_tags input = .ok (some tags, pos) →
      ∀ k r, (k, some r) ∈ tags → slice input r ≠ [])
    ∧ parsedTags "@a=1;b=2;d=;f;a\\b=3;c= TEST".data
        = some [("a".data, some "1".data), ("b".data, some "2".data),
                ("d".data, none), ("f".data, none),
                ("a\\b".data, some "3".data), ("c".data, none)]
    ∧ parsedCommand "@a=1;b=2;d=;f;a\\b=3;c= TEST".data = some "TEST".data := by
  refine ⟨?_, rfl, rfl⟩
  intro input tags pos h k r hmem
  unfold parse_tags at h
  by_cases hemp : input.isEmpty
  · rw [if_pos hemp] at h
    exact absurd h (by simp)
  · rw [if_neg hemp] at h
    by_cases hat : byteAt input 0 = '@'
    · rw [if_pos hat] at h
      cases hmv : move_next 0 input.length with
      | error e =>
        rw [hmv] at h
        exact absurd h (by simp)
      | ok position =>
        rw [hmv] at h
        simp only at h
        cases htl : tagsLoop input (input.length + 1) position [] with
        | error e =>
          rw [htl] at h
          exact absurd h (by simp)
        | ok v =>
          obtain ⟨tags', p'⟩ := v
          rw [htl] at h
          simp only at h
          injection h with h
          have htags : tags' = tags := by
            have := congrArg Prod.fst h
            simpa using this
          subst htags
          have hgood := tagsLoop_values (input.length + 1) position [] tags' p' htl
            (by intro t ht; exact absurd ht (List.not_mem_nil t)) (k, some r) hmem r rfl
          unfold slice
          intro hc
          have hlen := congrArg List.length hc
          rw [List.length_take, List.length_drop] at hlen
          simp at hlen
          omega
    · rw [if_neg hat] at h
      injection h with h
      exact absurd (congrArg Prod.fst h) (by simp)

/-- C3, witness: the nonemptiness fact applied to the tag value of the
concrete line `@k=v C`. -/
theorem C3_tag_values_nonempty_witness :
    slice "@k=v C".data (3, 4) ≠ [] :=
  C3_tag_values_nonempty.1 "@k=v C".data [((1, 2), some (3, 4))] 5 (by rfl)
    (1, 2) (3, 4) (by decide)

/-- C4: the truncated inputs `@a` (a line ending mid tag key) and the empty
buffer yield the unexpected end of input error, and on every input the
parser either returns a complete `Message` or that classified error — never
a partially populated record, and no other failure mode exists. -/
theorem C4_truncation_yields_classified_error :
    parse_message ([] : List Char) = .error .unexpectedEndOfInput
    ∧ parse_message "@a".data = .error .unexpectedEndOfInput
    ∧ ∀ input : List Char, (∃ m, parse_message input = .ok m)
        ∨ parse_message input = .error .unexpectedEndOfInput := by
  refine ⟨rfl, rfl, fun input => ?_⟩
  cases h : parse_message input with
  | ok m => exact Or.inl ⟨m, rfl⟩
  | error e =>
    cases e
    exact Or.inr rfl

/-- C5: whenever the byte following the tag section is `:` and the line
parses, the structured accessor returns exactly the `(origin, user?, host?)`
substrings described by the prefix grammar: the origin extends to the first
of space, `!` or `@`; a `!`-introduced user extends to the first of space or
`@`; an `@`-introduced host extends to the first space; and the prefix is
terminated by a space. -/
theorem C5_prefix_structured_accessor {input : List Char} {m : Message}
    {t : Option (List TagRange)} {pos : Nat}
    (h1 : parse_message input = .ok m)
    (h2 : parse_tags input = .ok (t, pos))
    (h3 : byteAt input pos = ':') :
    m.getPrefix = prefixSpec (input.drop (pos + 1)) := by
  obtain ⟨tags, p1, pf, p2, cmd, p3, args, p4, g1, g2, g3, g4, hm⟩ := parse_message_inv h1
  have he := h2.symm.trans g1
  injection he with he
  have hp : pos = p1 := congrArg Prod.snd he
  subst hp
  obtain ⟨pr, hpr, hspec⟩ := parsePrefix_ok_spec h3 g2
  subst hm
  simp only [Message.getPrefix, hpr]
  exact hspec.symm

/-- C5, witness: the accessor equality applied to the concrete line
`:nick!user@host.net TEST`. -/
theorem C5_prefix_structured_accessor_witness :
    parse_message ":nick!user@host.net TEST".data
      = .ok { message := ":nick!user@host.net TEST".data, tags := none,
              msgPrefix := some { rawPrefix := (1, 19), prefixRange := (1, 5),
                                  user := some (6, 10), host := some (11, 19) },
              command := (20, 24), arguments := none }
    ∧ ({ message := ":nick!user@host.net TEST".data, tags := none,
         msgPrefix := some { rawPrefix := (1, 19), prefixRange := (1, 5),
                             user := some (6, 10), host := some (11, 19) },
         command := (20, 24), arguments := none } : Message).getPrefix
        = prefixSpec (":nick!user@host.net TEST".data.drop (0 + 1)) :=
  ⟨by rfl, C5_prefix_structured_accessor (by rfl) (by rfl) (by decide)⟩

/-- C6: the generic `try_match` compares the command to the shape name with
an exact, case-sensitive string comparison; on equality it returns exactly
what `parse` returns, and on any other command it returns `none` with a
result that does not depend on `parse` at all. -/
theorem C6_try_match_exact_comparison :
    ∀ (α : Type) (N : List Char) (p q : List (List Char) → Option α)
      (c : List Char) (args : List (List Char)),
      (c = N → CommandShape.try_match ⟨N, p⟩ c args = p args)
      ∧ (c ≠ N → CommandShape.try_match ⟨N, p⟩ c args = none
          ∧ CommandShape.try_match ⟨N, p⟩ c args
              = CommandShape.try_match ⟨N, q⟩ c args) := by
  intro α N p q c args
  constructor
  · intro h
    simp [CommandShape.try_match, h]
  · intro h
    constructor
    · simp [CommandShape.try_match, h]
    · simp [CommandShape.try_match, h]

/-- C6, witness: the lowercase command `ping` does not match the `PING`
shape, case-sensitively, and yields `none`. -/
theorem C6_try_match_exact_comparison_witness :
    ("ping".data ≠ PingShape.NAME)
    ∧ CommandShape.try_match ⟨PingShape.NAME, PingShape.parse⟩ "ping".data
        ["x".data] = none :=
  ⟨by decide,
   ((C6_try_match_exact_comparison (List Char) PingShape.NAME PingShape.parse
      PingShape.parse "ping".data ["x".data]).2 (by decide)).1⟩

/-- C7: extracting the NamesReply shape from the parsed line
`353 = #test :robot1 robot2 robot3` succeeds with visibility `Other`,
channel `#test` and the three members; and in general the two required
trailing fields are pulled off the back of the argument sequence before the
optional leading visibility marker is examined, an absent marker defaulting
to `Other`. -/
theorem C7_names_reply_extraction :
    runCommand NamesReplyShape "353 = #test :robot1 robot2 robot3".data
      = some (NamesReplyChannelType.Other, "#test".data,
              ["robot1".data, "robot2".data, "robot3".data])
    ∧ ∀ (leading : List (List Char)) (channel names : List Char),
        NamesReply.parse (leading ++ [channel, names])
          = some ((match leading.getLast? with
                   | some ct =>
                     if ct = "@".data then NamesReplyChannelType.Secret
                     else if ct = "*".data then NamesReplyChannelType.Private
                     else NamesReplyChannelType.Other
                   | none => NamesReplyChannelType.Other),
                  channel, splitWhitespace names) := by
  constructor
  · rfl
  · intro leading channel names
    unfold NamesReply.parse
    rw [show leading ++ [channel, names] = (leading ++ [channel]) ++ [names] by simp,
      List.reverse_append, List.reverse_append]
    simp [List.head?_reverse]

/-- C9: a line whose command token is immediately followed by a space that
is the last byte of the buffer fails with the unexpected end of input error
(first part, for arbitrary successful tag and prefix phases); and for every
nonempty space-free line not starting a tag or prefix section, the line
itself parses successfully while the same line with one trailing space
appended fails (second part). -/
theorem C9_trailing_space_after_command :
    (∀ (input : List Char) (t : Option (List TagRange)) (p1 : Nat)
        (pf : Option PrefixRange) (p2 : Nat),
      parse_tags input = .ok (t, p1) →
      parsePrefix input p1 = .ok (pf, p2) →
      (if byteAt input 0 = ' ' then p2 + 1 else p2) ≤ input.length - 1 →
      byteAt input (input.length - 1) = ' ' →
      (∀ i, (if byteAt input 0 = ' ' then p2 + 1 else p2) ≤ i →
        i < input.length - 1 → byteAt input i ≠ ' ') →
      parse_message input = .error .unexpectedEndOfInput)
    ∧ (∀ c : List Char, c ≠ [] → (∀ ch ∈ c, ch ≠ ' ') →
        byteAt c 0 ≠ '@' → byteAt c 0 ≠ ':' →
        parse_message c
          = .ok { message := c, tags := none, msgPrefix := none,
                  command := (0, c.length), arguments := none }
        ∧ parse_message (c ++ [' ']) = .error .unexpectedEndOfInput) := by
  constructor
  · intro input t p1 pf p2 h1 h2 hstart hlast hmid
    have hlen1 : input.length - 1 < input.length := byteAt_lt (by rw [hlast]; decide)
    have hcmd : parse_command input p2 = .error .unexpectedEndOfInput := by
      by_cases hp2 : p2 < input.length
      · simp only [parse_command]
        rw [if_neg (by omega)]
        have hscan : cmdScan input (input.length + 1)
            (if byteAt input 0 = ' ' then p2 + 1 else p2) = input.length - 1 := by
          rw [cmdScan_spec input (input.length + 1) _ (by omega)]
          rw [takeWhile_length_eq (fun c => !(c == ' ')) input
            (if byteAt input 0 = ' ' then p2 + 1 else p2)
            (input.length - 1 - (if byteAt input 0 = ' ' then p2 + 1 else p2))
            (by omega)
            (fun i hi => by
              have hne := hmid ((if byteAt input 0 = ' ' then p2 + 1 else p2) + i)
                (by omega) (by omega)
              simp [hne])
            (by
              rw [show (if byteAt input 0 = ' ' then p2 + 1 else p2)
                  + (input.length - 1 - (if byteAt input 0 = ' ' then p2 + 1 else p2))
                  = input.length - 1 by omega, hlast]
              simp)]
          omega
        rw [hscan]
        rw [if_pos ⟨by omega, hlast⟩]
        rw [move_next_err (by omega)]
      · simp only [parse_command]
        rw [if_pos (by omega)]
    exact parse_message_err_of_command h1 h2 hcmd
  · intro c hne hsp h0 h1
    have hlen : 0 < c.length := List.length_pos.mpr hne
    have hmem0 : byteAt c 0 ∈ c := by
      have hd := drop_eq_byteAt_cons hlen
      rw [List.drop_zero] at hd
      rw [hd]
      exact List.mem_cons_self _ _
    have h0sp : byteAt c 0 ≠ ' ' := hsp _ hmem0
    have htags : parse_tags c = .ok (none, 0) := by
      unfold parse_tags
      rw [if_neg (by simpa [List.isEmpty_iff] using hne), if_neg h0]
    have hpref : parsePrefix c 0 = .ok (none, 0) := by
      unfold parsePrefix
      rw [if_neg (by omega), if_neg h1]
    constructor
    · have hcmd : parse_command c 0 = .ok ((0, c.length), c.length) := by
        simp only [parse_command]
        rw [if_neg (by omega), if_neg h0sp]
        have hscan : cmdScan c (c.length + 1) 0 = c.length := by
          rw [cmdScan_spec c (c.length + 1) 0 (by omega), List.drop_zero,
            takeWhile_nospace_self hsp]
          omega
        rw [hscan, if_neg (by simp)]
      have hargs : parse_args c c.length = .ok (none, c.length) := by
        unfold parse_args
        rw [if_pos (le_refl _)]
      simp [parse_message, htags, hpref, hcmd, hargs]
    · have hlen' : (c ++ [' ']).length = c.length + 1 := by simp
      have hb0 : byteAt (c ++ [' ']) 0 = byteAt c 0 := byteAt_append_left hlen
      have htags' : parse_tags (c ++ [' ']) = .ok (none, 0) := by
        unfold parse_tags
        rw [if_neg (by simp), hb0, if_neg h0]
      have hpref' : parsePrefix (c ++ [' ']) 0 = .ok (none, 0) := by
        unfold parsePrefix
        rw [if_neg (by rw [hlen']; omega), hb0, if_neg h1]
      have hcmd' : parse_command (c ++ [' ']) 0 = .error .unexpectedEndOfInput := by
        simp only [parse_command]
        rw [if_neg (by rw [hlen']; omega), hb0, if_neg h0sp]
        have hscan : cmdScan (c ++ [' ']) ((c ++ [' ']).length + 1) 0 = c.length := by
          rw [cmdScan_spec (c ++ [' ']) _ 0 (by omega), List.drop_zero,
            show c ++ [' '] = c ++ ' ' :: [] from rfl,
            takeWhile_nospace_append [] hsp]
          omega
        rw [hscan]
        rw [if_pos ⟨by rw [hlen']; omega, byteAt_concat_length c ' '⟩]
        rw [move_next_err (by rw [hlen'])]
      exact parse_message_err_of_command htags' hpref' hcmd'

/-- C9, witness: `TEST` parses while `TEST ` fails with unexpected end of
input. -/
theorem C9_trailing_space_after_command_witness :
    parse_message "TEST".data
      = .ok { message := "TEST".data, tags := none, msgPrefix := none,
              command := (0, "TEST".data.length), arguments := none }
    ∧ parse_message ("TEST".data ++ [' ']) = .error .unexpectedEndOfInput :=
  C9_trailing_space_after_command.2 "TEST".data (by decide) (by decide)
    (by decide) (by decide)

/-- C10: for a successfully parsed line, if the argument region ends in a
space, or contains two consecutive spaces, and no `:` was seen earlier in
the argument region, then the argument list contains an empty-string
argument. -/
theorem C10_empty_argument (input : List Char) (pos : Nat)
    (hpos : pos < input.length)
    (hcase : (byteAt input (input.length - 1) = ' ' ∧ ':' ∉ input.drop pos)
      ∨ (∃ i, pos + i + 1 < input.length ∧ byteAt input (pos + i) = ' '
          ∧ byteAt input (pos + i + 1) = ' '
          ∧ ':' ∉ (input.drop pos).take i)) :
    ∃ args p, parse_args input pos = .ok (some args, p)
      ∧ [] ∈ args.map (slice input) := by
  unfold parse_args
  rw [if_neg (by omega)]
  refine ⟨_, _, rfl, ?_⟩
  have hchar := argsLoop_spec input (input.length + 1) pos pos []
    (le_refl _) hpos (by omega) (by simp [slice_nil])
  rw [slice_nil] at hchar
  rw [hchar]
  simp only [List.map_nil, List.nil_append]
  show [] ∈ argsSpec (input.drop pos)
  rcases hcase with ⟨hlast, hcolon⟩ | ⟨i, hi, hsp1, hsp2, hcolon⟩
  · apply argsSpec_ends_space ?_ ?_ hcolon
    · intro hc
      have hlen := congrArg List.length hc
      rw [List.length_drop] at hlen
      simp at hlen
      omega
    · rw [List.getLast?_eq_getElem?, List.length_drop, List.getElem?_drop,
        show pos + (input.length - pos - 1) = input.length - 1 by omega,
        List.getElem?_eq_getElem (by omega), ← byteAt_eq_getElem (by omega), hlast]
  · have hri : i < (input.drop pos).length := by
      rw [List.length_drop]
      omega
    have hri2 : i + 1 < (input.drop pos).length := by
      rw [List.length_drop]
      omega
    have h1 : (input.drop pos).drop i = ' ' :: (input.drop pos).drop (i + 1) := by
      rw [drop_eq_byteAt_cons hri, byteAt_drop, hsp1]
    have h2 : (input.drop pos).drop (i + 1) = ' ' :: (input.drop pos).drop (i + 2) := by
      rw [drop_eq_byteAt_cons hri2, byteAt_drop,
        show pos + (i + 1) = pos + i + 1 by omega, hsp2]
    have hregion : input.drop pos = (input.drop pos).take i
        ++ ' ' :: ' ' :: (input.drop pos).drop (i + 2) := by
      conv_lhs => rw [← List.take_append_drop i (input.drop pos)]
      rw [h1, h2]
    rw [hregion]
    exact argsSpec_double_space _ _ hcolon

/-- C10, witness: the line `TEST a ` of the claim, whose argument region is
`a `, parsed with arguments `["a", ""]`. -/
theorem C10_empty_argument_witness :
    (5 < "TEST a ".data.length)
    ∧ parsedArgs "TEST a ".data = some ["a".data, []]
    ∧ ∃ args p, parse_args "TEST a ".data 5 = .ok (some args, p)
        ∧ [] ∈ args.map (slice "TEST a ".data) :=
  ⟨by decide, by rfl,
   C10_empty_argument "TEST a ".data 5 (by decide)
     (Or.inl ⟨by decide, by decide⟩)⟩

end Pircolate
